import Mathlib

/-!
Verification of the scroll-synchronization core of a two-pane markdown
editor (`src/components/MilkdownEditor.tsx`).

The numeric computations of the source (JavaScript numbers) are embedded
over `ℚ`; DOM metrics (scroll offsets, heights, anchor coordinates) become
explicit parameters, and the stateful controller (sync lock, pending scroll
writes, debounce timer) becomes explicit state passing.
-/

namespace Lacto

/-- `clamp(value, min, max) = Math.min(max, Math.max(min, value))`. -/
def clamp (value lo hi : ℚ) : ℚ :=
  min hi (max lo value)

/-- `resampleStops(stops, nextLen)`: piecewise-linear resampling of a stop
sequence over index position to a new length.  `stops[i] ?? stops[maxIndex]`
is rendered as `getD` with the fallback as default. -/
def resampleStops (stops : List ℚ) (nextLen : Nat) : List ℚ :=
  if nextLen = 0 then []
  else if stops.length = nextLen then stops
  else if stops.length = 0 then List.replicate nextLen 0
  else if stops.length = 1 then List.replicate nextLen (stops.getD 0 0)
  else
    let maxIndex := stops.length - 1
    (List.range nextLen).map (fun (j : Nat) =>
      let f : ℚ := if nextLen = 1 then 0 else (j : ℚ) / ((nextLen : ℚ) - 1)
      let x : ℚ := f * (maxIndex : ℚ)
      let i : Nat := (Int.floor x).toNat
      let t : ℚ := x - (i : ℚ)
      let a : ℚ := stops.getD i (stops.getD maxIndex 0)
      let b : ℚ := stops.getD (min (i + 1) maxIndex) (stops.getD maxIndex 0)
      a + (b - a) * t)

/-- The scan `let i = 0; while (i < len - 2 && top > fStops[i+1]) i++` of
`mapScrollTop`, as a fuel recursion: the initial fuel is `len - 2`, so fuel
counts the remaining iterations `len - 2 - i`. -/
def segScan (fStops : List ℚ) (top : ℚ) : Nat → Nat → Nat
  | 0, i => i
  | fuel + 1, i =>
      if top > fStops.getD (i + 1) 0 then segScan fStops top fuel (i + 1) else i

/-- `mapScrollTop(fromTop, fromStops, toStops, fromMax, toMax)`: maps a
scroll offset of one pane into the coordinate space of the other by
piecewise-linear interpolation between matched stops. -/
def mapScrollTop (fromTop : ℚ) (fromStops toStops : List ℚ)
    (fromMax toMax : ℚ) : ℚ :=
  if fromMax ≤ 0 ∨ toMax ≤ 0 then
    (if fromMax ≤ 0 then 0 else clamp (fromTop / fromMax) 0 1) * toMax
  else
    let fromL := if 2 ≤ fromStops.length then fromStops else [0, fromMax]
    let toL := if 2 ≤ toStops.length then toStops else [0, toMax]
    let len := max 2 (min fromL.length toL.length)
    let fStops := resampleStops fromL len
    let tStops := resampleStops toL len
    let top := clamp fromTop 0 fromMax
    let i := segScan fStops top (len - 2) 0
    let a := fStops.getD i 0
    let b := fStops.getD (i + 1) 0
    let t := if b = a then 0 else clamp ((top - a) / (b - a)) 0 1
    tStops.getD i 0 + (tStops.getD (i + 1) 0 - tStops.getD i 0) * t

/-- Proof-side view of one entry of the resampling map: the body of the
lambda in `resampleStops` at interpolation position `x = f * maxIndex`. -/
def interpAt (stops : List ℚ) (x : ℚ) : ℚ :=
  let maxIndex := stops.length - 1
  let i : Nat := (Int.floor x).toNat
  let t : ℚ := x - (i : ℚ)
  let a : ℚ := stops.getD i (stops.getD maxIndex 0)
  let b : ℚ := stops.getD (min (i + 1) maxIndex) (stops.getD maxIndex 0)
  a + (b - a) * t

/-- Proof-side view of the tail of `mapScrollTop` after both stop sequences
have been resampled to the common length `len`: segment scan followed by
linear interpolation of the matching destination segment. -/
def piecewiseMap (fStops tStops : List ℚ) (len : Nat) (top : ℚ) : ℚ :=
  let i := segScan fStops top (len - 2) 0
  let a := fStops.getD i 0
  let b := fStops.getD (i + 1) 0
  let t := if b = a then 0 else clamp ((top - a) / (b - a)) 0 1
  tStops.getD i 0 + (tStops.getD (i + 1) 0 - tStops.getD i 0) * t

/-- The cached stop set: one anchor sequence per pane. -/
structure Stops where
  sourceStops : List ℚ
  editorStops : List ℚ
deriving Repr, DecidableEq

/-- The test `/^#{1,6}\s+/.test(line)`: one to six leading hash marks
followed by at least one whitespace character. -/
def isHeadingLine (line : String) : Bool :=
  let cs := line.toList
  let hashes := (cs.takeWhile (fun c => c = '#')).length
  decide (1 ≤ hashes) && decide (hashes ≤ 6) &&
    (match cs.drop hashes with
     | c :: _ => c.isWhitespace
     | [] => false)

/-- `extractHeadingLineStarts`: indices of heading lines of the document. -/
def extractHeadingLineStarts (markdown : String) : List Nat :=
  let lines := markdown.splitOn "\n"
  (List.range lines.length).filter (fun i => isHeadingLine (lines.getD i ""))

/-- `extractBlockLineStarts`: line 0 plus every non-blank line directly after
a blank line; `Array.from(new Set(starts)).sort((a,b) => a-b)` is rendered as
dedup followed by sorting in ascending order. -/
def extractBlockLineStarts (markdown : String) : List Nat :=
  let lines := markdown.splitOn "\n"
  let starts := 0 :: (List.range lines.length).filter (fun i =>
    decide (1 ≤ i) && decide ((lines.getD (i - 1) "").trim = "")
      && !decide ((lines.getD i "").trim = ""))
  List.insertionSort (· ≤ ·) starts.dedup

/-- Tail of the dedupe reduce of `recomputeStops`, carrying the most recently
pushed value: a new value is pushed only when it differs from the last pushed
one by more than `0.5`. -/
def dedupeAux (lastKept : ℚ) : List ℚ → List ℚ
  | [] => []
  | x :: xs => if 1/2 < |x - lastKept| then x :: dedupeAux x xs else dedupeAux lastKept xs

/-- The reduce `if (acc.length === 0 || Math.abs(x - acc[acc.length-1]) > 0.5)
acc.push(x)`:  the first element is always pushed. -/
def dedupeStops : List ℚ → List ℚ
  | [] => []
  | x :: xs => x :: dedupeAux x xs

/-- Tail of the filter `(x, idx, arr) => idx === 0 || x >= arr[idx-1]`,
carrying the previous element of the ORIGINAL array (not the last kept). -/
def filterAscAux (prev : ℚ) : List ℚ → List ℚ
  | [] => []
  | x :: xs => if prev ≤ x then x :: filterAscAux x xs else filterAscAux x xs

/-- The index-based filter of `recomputeStops`: element 0 always kept, later
elements kept when not below their original predecessor. -/
def filterAsc : List ℚ → List ℚ
  | [] => []
  | x :: xs => x :: filterAscAux x xs

/-- `recomputeStops`, with all DOM metrics as explicit inputs: `lineHeight`
from `getLineHeightPx`, scroll/client heights of both panes, and the raw
editor anchor coordinates (`coords.top - editorRect.top + editorScrollTop`
per structural node, coordinate-query failures already skipped) for heading
nodes and for top-level block nodes. -/
def recomputeStops (markdown : String) (lineHeight : ℚ)
    (sourceScrollHeight sourceClientHeight : ℚ)
    (editorScrollHeight editorClientHeight : ℚ)
    (editorHeadingTopsRaw editorBlockTopsRaw : List ℚ) : Stops :=
  let sourceMax := max 0 (sourceScrollHeight - sourceClientHeight)
  let editorMax := max 0 (editorScrollHeight - editorClientHeight)
  let headingLines := extractHeadingLineStarts markdown
  let blockLines := extractBlockLineStarts markdown
  let sourceLines := if 2 ≤ headingLines.length then headingLines else blockLines
  let sourceStops := dedupeStops (filterAsc
    (0 :: (sourceLines.map (fun (line : Nat) => clamp ((line : ℚ) * lineHeight) 0 sourceMax)
      ++ [sourceMax])))
  let editorHeadingStops := editorHeadingTopsRaw.map (fun top => clamp top 0 editorMax)
  let editorBlockStops := editorBlockTopsRaw.map (fun top => clamp top 0 editorMax)
  let editorAnchorsRaw :=
    if 2 ≤ editorHeadingStops.length then editorHeadingStops else editorBlockStops
  let editorStops := dedupeStops
    (List.insertionSort (· ≤ ·) (0 :: (editorAnchorsRaw ++ [editorMax])))
  Stops.mk sourceStops editorStops

/-- A scrollable pane identifier: the `"source" | "editor"` union. -/
inductive Pane
  | source
  | editor
deriving Repr, DecidableEq

/-- Scroll metrics of one pane's DOM element. -/
structure PaneGeom where
  scrollTop : ℚ
  scrollHeight : ℚ
  clientHeight : ℚ
deriving Repr, DecidableEq

/-- `Math.max(0, el.scrollHeight - el.clientHeight)`. -/
def maxScroll (g : PaneGeom) : ℚ :=
  max 0 (g.scrollHeight - g.clientHeight)

/-- Mutable state of the scroll sync controller: `syncLockRef`,
`syncLockUntilRef` and the per-pane pending scroll targets of
`pendingScrollsRef`. -/
structure SyncState where
  syncLock : Option Pane
  syncLockUntil : ℚ
  pendingSource : Option ℚ
  pendingEditor : Option ℚ
deriving Repr, DecidableEq

/-- `acquireLock(who, ms)`: record the holder and the expiry instant
`performance.now() + ms`; `now` is the current clock reading. -/
def acquireLock (who : Pane) (ms now : ℚ) (s : SyncState) : SyncState :=
  { s with syncLock := some who, syncLockUntil := now + ms }

/-- `isLockedByOther(who)`: no lock means free; a lock past its expiry is
cleared and reported free; otherwise locked exactly when held by the other
pane.  Returns the verdict together with the (possibly cleared) state. -/
def isLockedByOther (who : Pane) (now : ℚ) (s : SyncState) : Bool × SyncState :=
  match s.syncLock with
  | none => (false, s)
  | some locked =>
      if s.syncLockUntil < now then (false, { s with syncLock := none })
      else (decide (locked ≠ who), s)

/-- `scheduleScrollTop(key, el, target)`: overwrite the pending target slot of
pane `key` (last-value-wins; the animation-frame drain is not modelled). -/
def scheduleScrollTop (key : Pane) (target : ℚ) (s : SyncState) : SyncState :=
  match key with
  | .source => { s with pendingSource := some target }
  | .editor => { s with pendingEditor := some target }

/-- `syncSourceToEditor()`: on a source-pane scroll event, bail out when the
editor pane holds an unexpired lock, otherwise map the source scroll offset,
lock the source pane for 260ms, and schedule the editor write. -/
def syncSourceToEditor (now : ℚ) (sourceGeom editorGeom : PaneGeom)
    (stops : Stops) (s : SyncState) : SyncState :=
  let check := isLockedByOther .source now s
  if check.1 then check.2
  else
    let sourceMax := maxScroll sourceGeom
    let editorMax := maxScroll editorGeom
    let target := mapScrollTop sourceGeom.scrollTop stops.sourceStops stops.editorStops
      sourceMax editorMax
    scheduleScrollTop .editor target (acquireLock .source 260 now check.2)

/-- `syncEditorToSource()`: the mirror-image handler for editor-pane scroll
events. -/
def syncEditorToSource (now : ℚ) (sourceGeom editorGeom : PaneGeom)
    (stops : Stops) (s : SyncState) : SyncState :=
  let check := isLockedByOther .editor now s
  if check.1 then check.2
  else
    let sourceMax := maxScroll sourceGeom
    let editorMax := maxScroll editorGeom
    let target := mapScrollTop editorGeom.scrollTop stops.editorStops stops.sourceStops
      editorMax sourceMax
    scheduleScrollTop .source target (acquireLock .editor 260 now check.2)

/-- Mutable state of the edit propagation controller: the tracked source
document (`markdownRef` / `setMarkdown`), the latest render-originated text
(`lastMarkdownFromEditorRef`) and the echo flag (`applyingFromSourceRef`). -/
structure EditState where
  markdown : String
  lastMarkdownFromEditor : String
  applyingFromSource : Bool
deriving Repr, DecidableEq

/-- The `markdownUpdated` listener: always record the emitted text; adopt it
as the new source document only when the echo flag is clear and the text
differs from the tracked document. -/
def markdownUpdated (s : EditState) (nextMarkdown : String) : EditState :=
  let s1 := { s with lastMarkdownFromEditor := nextMarkdown }
  if s1.applyingFromSource then s1
  else if nextMarkdown = s1.markdown then s1
  else { s1 with markdown := nextMarkdown }

/-- The debounce effect of `InnerEditor` run over a timed trace of source
edits.  Each edit first lets a pending timer whose deadline has passed fire,
then (cleanup) cancels any remaining timer and (effect body) arms a new one
at `t + debounceMs` — unless the new text equals the latest render-originated
text, in which case no timer is armed.  The returned list is the sequence of
`replaceAll` commands as `(time, text)` pairs. -/
def runDebounce (debounceMs : ℚ) (lastFromEditor : String) :
    List (ℚ × String) → Option (ℚ × String) → List (ℚ × String)
  | [], pending => pending.toList
  | (t, s) :: rest, pending =>
      let fired := match pending with
        | some p => if p.1 ≤ t then [p] else []
        | none => []
      let next := if s = lastFromEditor then none else some (t + debounceMs, s)
      fired ++ runDebounce debounceMs lastFromEditor rest next

/-! ### Elementary facts about `clamp` -/

theorem clamp_le (value lo hi : ℚ) : clamp value lo hi ≤ hi :=
  min_le_left _ _

theorem le_clamp (value lo hi : ℚ) (h : lo ≤ hi) : lo ≤ clamp value lo hi :=
  le_min h (le_max_left _ _)

theorem clamp_mono (lo hi : ℚ) {v w : ℚ} (h : v ≤ w) :
    clamp v lo hi ≤ clamp w lo hi :=
  min_le_min le_rfl (max_le_max le_rfl h)

theorem clamp_of_mem (value lo hi : ℚ) (h1 : lo ≤ value) (h2 : value ≤ hi) :
    clamp value lo hi = value := by
  unfold clamp
  rw [max_eq_right h1, min_eq_right h2]

theorem clamp_nonneg_of_nonpos (v hi : ℚ) (hv : v ≤ 0) :
    clamp v 0 hi = min hi 0 := by
  unfold clamp
  rw [max_eq_left hv]

/-! ### Indexing into sorted lists via `getD` -/

theorem sorted_getD_le {l : List ℚ} (hs : l.Sorted (· ≤ ·)) {i j : Nat}
    (hij : i ≤ j) (hj : j < l.length) (d e : ℚ) : l.getD i d ≤ l.getD j e := by
  have hi : i < l.length := lt_of_le_of_lt hij hj
  rw [List.getD_eq_get _ _ hi, List.getD_eq_get _ _ hj]
  exact hs.rel_get_of_le (by simpa using hij)

theorem sorted_getD_lt {l : List ℚ} (hs : l.Sorted (· < ·)) {i j : Nat}
    (hij : i < j) (hj : j < l.length) (d e : ℚ) : l.getD i d < l.getD j e := by
  have hi : i < l.length := lt_trans hij hj
  rw [List.getD_eq_get _ _ hi, List.getD_eq_get _ _ hj]
  exact hs.rel_get_of_lt (by simpa using hij)

theorem getD_irrel {l : List ℚ} {i : Nat} (hi : i < l.length) (d e : ℚ) :
    l.getD i d = l.getD i e := by
  rw [List.getD_eq_get _ _ hi, List.getD_eq_get _ _ hi]

theorem getD_mem {l : List ℚ} {i : Nat} (hi : i < l.length) (d : ℚ) :
    l.getD i d ∈ l := by
  rw [List.getD_eq_get _ _ hi]
  exact List.get_mem _ _ _

/-! ### The segment scan -/

theorem segScan_le_add (fStops : List ℚ) (top : ℚ) :
    ∀ fuel i, segScan fStops top fuel i ≤ i + fuel := by
  intro fuel
  induction fuel with
  | zero => intro i; simp [segScan]
  | succ n ih =>
      intro i
      unfold segScan
      split
      · exact le_trans (ih (i + 1)) (by omega)
      · omega

theorem le_segScan (fStops : List ℚ) (top : ℚ) :
    ∀ fuel i, i ≤ segScan fStops top fuel i := by
  intro fuel
  induction fuel with
  | zero => intro i; simp [segScan]
  | succ n ih =>
      intro i
      unfold segScan
      split
      · exact le_trans (by omega) (ih (i + 1))
      · exact le_rfl

theorem segScan_mono (fStops : List ℚ) {top1 top2 : ℚ} (h : top1 ≤ top2) :
    ∀ fuel i, segScan fStops top1 fuel i ≤ segScan fStops top2 fuel i := by
  intro fuel
  induction fuel with
  | zero => intro i; simp [segScan]
  | succ n ih =>
      intro i
      unfold segScan
      by_cases h1 : top1 > fStops.getD (i + 1) 0
      · have h2 : top2 > fStops.getD (i + 1) 0 := lt_of_lt_of_le h1 h
        rw [if_pos h1, if_pos h2]
        exact ih (i + 1)
      · rw [if_neg h1]
        split
        · exact le_trans (by omega) (le_segScan fStops top2 n (i + 1))
        · exact le_rfl

theorem segScan_stopped (fStops : List ℚ) (top : ℚ) :
    ∀ fuel i, segScan fStops top fuel i = i + fuel ∨
      top ≤ fStops.getD (segScan fStops top fuel i + 1) 0 := by
  intro fuel
  induction fuel with
  | zero => intro i; left; simp [segScan]
  | succ n ih =>
      intro i
      unfold segScan
      by_cases h1 : top > fStops.getD (i + 1) 0
      · rw [if_pos h1]
        rcases ih (i + 1) with h | h
        · left; omega
        · right; exact h
      · rw [if_neg h1]
        right
        exact le_of_not_lt h1

theorem segScan_full (fStops : List ℚ) (top : ℚ) :
    ∀ fuel i, (∀ k, i ≤ k → k < i + fuel → fStops.getD (k + 1) 0 < top) →
      segScan fStops top fuel i = i + fuel := by
  intro fuel
  induction fuel with
  | zero => intro i _; simp [segScan]
  | succ n ih =>
      intro i hall
      unfold segScan
      rw [if_pos (hall i le_rfl (by omega))]
      have := ih (i + 1) (fun k hk1 hk2 => hall k (by omega) (by omega))
      omega

theorem segScan_eq_start (fStops : List ℚ) (top : ℚ) (fuel i : Nat)
    (h : top ≤ fStops.getD (i + 1) 0) : segScan fStops top fuel i = i := by
  cases fuel with
  | zero => simp [segScan]
  | succ n =>
      unfold segScan
      rw [if_neg (not_lt_of_le h)]

/-! ### The interpolation kernel of `resampleStops` -/

theorem interpAt_eq_floor (stops : List ℚ) (x : ℚ) :
    interpAt stops x =
      stops.getD ⌊x⌋₊ (stops.getD (stops.length - 1) 0) +
        (stops.getD (min (⌊x⌋₊ + 1) (stops.length - 1))
            (stops.getD (stops.length - 1) 0) -
          stops.getD ⌊x⌋₊ (stops.getD (stops.length - 1) 0)) * (x - (⌊x⌋₊ : ℚ)) := by
  simp only [interpAt, Int.floor_toNat]

theorem interpAt_of_floor_lt {stops : List ℚ} {x : ℚ}
    (hi : ⌊x⌋₊ < stops.length - 1) :
    interpAt stops x =
      stops.getD ⌊x⌋₊ 0 +
        (stops.getD (⌊x⌋₊ + 1) 0 - stops.getD ⌊x⌋₊ 0) * (x - (⌊x⌋₊ : ℚ)) := by
  rw [interpAt_eq_floor]
  have hlen : ⌊x⌋₊ < stops.length := by omega
  have hlen1 : ⌊x⌋₊ + 1 < stops.length := by omega
  rw [min_eq_left (by omega), getD_irrel hlen _ (0 : ℚ), getD_irrel hlen1 _ (0 : ℚ)]

theorem interpAt_of_le_floor {stops : List ℚ} {x : ℚ}
    (h1 : 1 ≤ stops.length) (hi : stops.length - 1 ≤ ⌊x⌋₊) :
    interpAt stops x = stops.getD (stops.length - 1) 0 := by
  rw [interpAt_eq_floor]
  have hmm : stops.length - 1 < stops.length := by omega
  rcases eq_or_lt_of_le hi with h | h
  · have hlen : ⌊x⌋₊ < stops.length := by omega
    rw [min_eq_right (by omega), ← h, getD_irrel hmm _ (0 : ℚ)]
    ring
  · have hdef : stops.length ≤ ⌊x⌋₊ := by omega
    rw [min_eq_right (by omega), List.getD_eq_default _ _ hdef,
      getD_irrel hmm (stops.getD (stops.length - 1) 0) (0 : ℚ)]
    ring

theorem interpAt_bounds {stops : List ℚ} {x : ℚ} (hs : stops.Sorted (· ≤ ·))
    (hx : 0 ≤ x) (hi : ⌊x⌋₊ < stops.length - 1) :
    stops.getD ⌊x⌋₊ 0 ≤ interpAt stops x ∧
      interpAt stops x ≤ stops.getD (⌊x⌋₊ + 1) 0 := by
  rw [interpAt_of_floor_lt hi]
  have hfl : (⌊x⌋₊ : ℚ) ≤ x := Nat.floor_le hx
  have hfu : x < (⌊x⌋₊ : ℚ) + 1 := Nat.lt_floor_add_one x
  have hab : stops.getD ⌊x⌋₊ 0 ≤ stops.getD (⌊x⌋₊ + 1) 0 :=
    sorted_getD_le hs (by omega) (by omega) 0 0
  constructor
  · nlinarith
  · nlinarith

theorem interpAt_lt_next {stops : List ℚ} {x : ℚ} (hs : stops.Sorted (· < ·))
    (hx : 0 ≤ x) (hi : ⌊x⌋₊ < stops.length - 1) :
    interpAt stops x < stops.getD (⌊x⌋₊ + 1) 0 := by
  rw [interpAt_of_floor_lt hi]
  have hfl : (⌊x⌋₊ : ℚ) ≤ x := Nat.floor_le hx
  have hfu : x < (⌊x⌋₊ : ℚ) + 1 := Nat.lt_floor_add_one x
  have hab : stops.getD ⌊x⌋₊ 0 < stops.getD (⌊x⌋₊ + 1) 0 :=
    sorted_getD_lt hs (by omega) (by omega) 0 0
  nlinarith

theorem interpAt_mono {stops : List ℚ} (hs : stops.Sorted (· ≤ ·))
    (h2 : 2 ≤ stops.length) {x1 x2 : ℚ} (hx1 : 0 ≤ x1) (hx : x1 ≤ x2) :
    interpAt stops x1 ≤ interpAt stops x2 := by
  have hx2 : 0 ≤ x2 := le_trans hx1 hx
  have hfl : ⌊x1⌋₊ ≤ ⌊x2⌋₊ := Nat.floor_mono hx
  by_cases h2m : stops.length - 1 ≤ ⌊x2⌋₊
  · rw [interpAt_of_le_floor (by omega) h2m]
    by_cases h1m : stops.length - 1 ≤ ⌊x1⌋₊
    · rw [interpAt_of_le_floor (by omega) h1m]
    · push_neg at h1m
      refine le_trans (interpAt_bounds hs hx1 h1m).2 ?_
      exact sorted_getD_le hs (by omega) (by omega) 0 0
  · push_neg at h2m
    rcases eq_or_lt_of_le hfl with he | hlt
    · rw [interpAt_of_floor_lt (he ▸ h2m), interpAt_of_floor_lt h2m, he]
      have hab : stops.getD ⌊x2⌋₊ 0 ≤ stops.getD (⌊x2⌋₊ + 1) 0 :=
        sorted_getD_le hs (by omega) (by omega) 0 0
      nlinarith
    · refine le_trans (interpAt_bounds hs hx1 (by omega)).2 ?_
      refine le_trans (sorted_getD_le hs (show ⌊x1⌋₊ + 1 ≤ ⌊x2⌋₊ by omega)
        (by omega) 0 0) ?_
      exact (interpAt_bounds hs hx2 h2m).1

theorem interpAt_strictMono {stops : List ℚ} (hs : stops.Sorted (· < ·))
    (h2 : 2 ≤ stops.length) {x1 x2 : ℚ} (hx1 : 0 ≤ x1) (hx : x1 < x2)
    (hx2m : x2 ≤ (stops.length - 1 : Nat)) :
    interpAt stops x1 < interpAt stops x2 := by
  have hsle : stops.Sorted (· ≤ ·) := hs.imp le_of_lt
  have hx2 : 0 ≤ x2 := le_trans hx1 (le_of_lt hx)
  have hfl : ⌊x1⌋₊ ≤ ⌊x2⌋₊ := Nat.floor_mono (le_of_lt hx)
  have h2m : ⌊x2⌋₊ ≤ stops.length - 1 := by
    have := Nat.floor_mono hx2m
    rwa [Nat.floor_natCast] at this
  rcases eq_or_lt_of_le h2m with h2e | h2lt
  · have hx2e : x2 = ((stops.length - 1 : Nat) : ℚ) := by
      have hle : ((stops.length - 1 : Nat) : ℚ) ≤ x2 := by
        rw [← h2e]; exact Nat.floor_le hx2
      exact le_antisymm hx2m hle
    have h1m : ⌊x1⌋₊ < stops.length - 1 := by
      have : x1 < ((stops.length - 1 : Nat) : ℚ) := hx2e ▸ hx
      have hf : (⌊x1⌋₊ : ℚ) < ((stops.length - 1 : Nat) : ℚ) :=
        lt_of_le_of_lt (Nat.floor_le hx1) this
      exact_mod_cast hf
    rw [interpAt_of_le_floor (by omega) (le_of_eq h2e.symm)]
    refine lt_of_lt_of_le (interpAt_lt_next hs hx1 h1m) ?_
    exact sorted_getD_le hsle (by omega) (by omega) 0 0
  · rcases eq_or_lt_of_le hfl with he | hlt
    · rw [interpAt_of_floor_lt (he ▸ h2lt), interpAt_of_floor_lt h2lt, he]
      have hab : stops.getD ⌊x2⌋₊ 0 < stops.getD (⌊x2⌋₊ + 1) 0 :=
        sorted_getD_lt hs (by omega) (by omega) 0 0
      nlinarith
    · refine lt_of_lt_of_le (interpAt_lt_next hs hx1 (by omega)) ?_
      refine le_trans (sorted_getD_le hsle (show ⌊x1⌋₊ + 1 ≤ ⌊x2⌋₊ by omega)
        (by omega) 0 0) ?_
      exact (interpAt_bounds hsle hx2 h2lt).1

theorem interpAt_mem_range {stops : List ℚ} {lo hi x : ℚ}
    (h1 : 1 ≤ stops.length) (hmem : ∀ y ∈ stops, lo ≤ y ∧ y ≤ hi) (hx : 0 ≤ x) :
    lo ≤ interpAt stops x ∧ interpAt stops x ≤ hi := by
  rw [interpAt_eq_floor]
  have hfl : (⌊x⌋₊ : ℚ) ≤ x := Nat.floor_le hx
  have hfu : x < (⌊x⌋₊ : ℚ) + 1 := Nat.lt_floor_add_one x
  have hmm : stops.length - 1 < stops.length := by omega
  have hamem : stops.getD ⌊x⌋₊ (stops.getD (stops.length - 1) 0) ∈ stops := by
    by_cases hin : ⌊x⌋₊ < stops.length
    · exact getD_mem hin _
    · rw [List.getD_eq_default _ _ (by omega)]
      exact getD_mem hmm _
  have hbmem : stops.getD (min (⌊x⌋₊ + 1) (stops.length - 1))
      (stops.getD (stops.length - 1) 0) ∈ stops :=
    getD_mem (by omega) _
  obtain ⟨ha1, ha2⟩ := hmem _ hamem
  obtain ⟨hb1, hb2⟩ := hmem _ hbmem
  constructor
  · nlinarith
  · nlinarith

/-! ### Properties of `resampleStops` -/

theorem resample_map_eq (stops : List ℚ) (n : Nat) (h0 : ¬ n = 0)
    (hlen : ¬ stops.length = n) (h2 : 2 ≤ stops.length) :
    resampleStops stops n = (List.range n).map (fun (j : Nat) =>
      interpAt stops
        ((if n = 1 then 0 else (j : ℚ) / ((n : ℚ) - 1)) *
          ((stops.length - 1 : Nat) : ℚ))) := by
  unfold resampleStops interpAt
  rw [if_neg h0, if_neg hlen, if_neg (by omega), if_neg (by omega)]

theorem get_map_range (f : Nat → ℚ) (n k : Nat)
    (hk : k < ((List.range n).map f).length) :
    ((List.range n).map f).get ⟨k, hk⟩ = f k := by
  simp

theorem getD_map_range (f : Nat → ℚ) (n k : Nat) (hk : k < n) :
    ((List.range n).map f).getD k 0 = f k := by
  have hk2 : k < ((List.range n).map f).length := by simpa using hk
  rw [List.getD_eq_get _ _ hk2, get_map_range]

theorem xval_nonneg (n m j : Nat) (hn : 1 ≤ n) :
    0 ≤ (if n = 1 then 0 else (j : ℚ) / ((n : ℚ) - 1)) * (m : ℚ) := by
  by_cases h1 : n = 1
  · simp [h1]
  · rw [if_neg h1]
    have hd : (0 : ℚ) < (n : ℚ) - 1 := by
      have : (2 : ℚ) ≤ (n : ℚ) := by exact_mod_cast show 2 ≤ n by omega
      linarith
    positivity

theorem xval_mono (n m : Nat) {j1 j2 : Nat} (hn : 1 ≤ n) (h : j1 ≤ j2) :
    (if n = 1 then 0 else (j1 : ℚ) / ((n : ℚ) - 1)) * (m : ℚ) ≤
      (if n = 1 then 0 else (j2 : ℚ) / ((n : ℚ) - 1)) * (m : ℚ) := by
  by_cases h1 : n = 1
  · simp [h1]
  · rw [if_neg h1, if_neg h1]
    have hd : (0 : ℚ) < (n : ℚ) - 1 := by
      have h2 : (2 : ℚ) ≤ (n : ℚ) := by exact_mod_cast show 2 ≤ n by omega
      linarith
    have hj : (j1 : ℚ) ≤ (j2 : ℚ) := by exact_mod_cast h
    have hm : (0 : ℚ) ≤ (m : ℚ) := by positivity
    have hdiv : (j1 : ℚ) / ((n : ℚ) - 1) ≤ (j2 : ℚ) / ((n : ℚ) - 1) :=
      (div_le_div_right hd).mpr hj
    exact mul_le_mul_of_nonneg_right hdiv hm

theorem xval_strictMono (n m : Nat) {j1 j2 : Nat} (hn : 2 ≤ n) (hm : 1 ≤ m)
    (h : j1 < j2) :
    (if n = 1 then 0 else (j1 : ℚ) / ((n : ℚ) - 1)) * (m : ℚ) <
      (if n = 1 then 0 else (j2 : ℚ) / ((n : ℚ) - 1)) * (m : ℚ) := by
  rw [if_neg (by omega), if_neg (by omega)]
  have hd : (0 : ℚ) < (n : ℚ) - 1 := by
    have h2 : (2 : ℚ) ≤ (n : ℚ) := by exact_mod_cast hn
    linarith
  have hj : (j1 : ℚ) < (j2 : ℚ) := by exact_mod_cast h
  have hm2 : (0 : ℚ) < (m : ℚ) := by exact_mod_cast show 0 < m by omega
  have hdiv : (j1 : ℚ) / ((n : ℚ) - 1) < (j2 : ℚ) / ((n : ℚ) - 1) :=
    (div_lt_div_right hd).mpr hj
  exact mul_lt_mul_of_pos_right hdiv hm2

theorem xval_le_top (n m : Nat) {j : Nat} (hn : 2 ≤ n) (hj : j < n) :
    (if n = 1 then 0 else (j : ℚ) / ((n : ℚ) - 1)) * (m : ℚ) ≤ (m : ℚ) := by
  rw [if_neg (by omega)]
  have hd : (0 : ℚ) < (n : ℚ) - 1 := by
    have h2 : (2 : ℚ) ≤ (n : ℚ) := by exact_mod_cast hn
    linarith
  have hj2 : (j : ℚ) ≤ (n : ℚ) - 1 := by
    have : (j : ℚ) + 1 ≤ (n : ℚ) := by exact_mod_cast hj
    linarith
  have hfle : (j : ℚ) / ((n : ℚ) - 1) ≤ 1 := by
    rw [div_le_one hd]
    exact hj2
  have hm : (0 : ℚ) ≤ (m : ℚ) := by positivity
  nlinarith

theorem sorted_le_replicate (n : Nat) (c : ℚ) :
    (List.replicate n c).Sorted (· ≤ ·) := by
  induction n with
  | zero => simp
  | succ k ih =>
      rw [List.replicate_succ, List.sorted_cons]
      exact ⟨fun b hb => le_of_eq (List.eq_of_mem_replicate hb).symm, ih⟩

theorem resampleStops_length (stops : List ℚ) (n : Nat) :
    (resampleStops stops n).length = n := by
  unfold resampleStops
  split
  · simp_all
  · split
    · assumption
    · split
      · simp
      · split
        · simp
        · rw [List.length_map, List.length_range]

theorem resampleStops_sorted_le (stops : List ℚ) (n : Nat)
    (hs : stops.Sorted (· ≤ ·)) : (resampleStops stops n).Sorted (· ≤ ·) := by
  by_cases h0 : n = 0
  · subst h0; simp [resampleStops]
  by_cases hlen : stops.length = n
  · unfold resampleStops; rw [if_neg h0, if_pos hlen]; exact hs
  by_cases hz : stops.length = 0
  · unfold resampleStops; rw [if_neg h0, if_neg hlen, if_pos hz]
    exact sorted_le_replicate n 0
  by_cases h1 : stops.length = 1
  · unfold resampleStops; rw [if_neg h0, if_neg hlen, if_neg hz, if_pos h1]
    exact sorted_le_replicate n _
  · have h2 : 2 ≤ stops.length := by omega
    rw [resample_map_eq stops n h0 hlen h2]
    rw [List.Sorted, List.pairwise_iff_get]
    intro i j hij
    obtain ⟨i, hi⟩ := i
    obtain ⟨j, hj⟩ := j
    rw [get_map_range, get_map_range]
    exact interpAt_mono hs h2 (xval_nonneg n _ i (by omega))
      (xval_mono n _ (by omega) (le_of_lt (by exact_mod_cast hij)))

theorem resampleStops_sorted_lt (stops : List ℚ) (n : Nat)
    (h2 : 2 ≤ stops.length) (hs : stops.Sorted (· < ·)) :
    (resampleStops stops n).Sorted (· < ·) := by
  by_cases h0 : n = 0
  · subst h0; simp [resampleStops]
  by_cases hlen : stops.length = n
  · unfold resampleStops; rw [if_neg h0, if_pos hlen]; exact hs
  · rw [resample_map_eq stops n h0 hlen h2]
    rw [List.Sorted, List.pairwise_iff_get]
    intro i j hij
    obtain ⟨i, hi⟩ := i
    obtain ⟨j, hj⟩ := j
    rw [get_map_range, get_map_range]
    have hij2 : i < j := by exact_mod_cast hij
    have hjn : j < n := by simpa using hj
    by_cases hn1 : n = 1
    · omega
    · have hn2 : 2 ≤ n := by omega
      refine interpAt_strictMono hs h2 (xval_nonneg n _ i (by omega)) ?_ ?_
      · exact xval_strictMono n _ hn2 (by omega) hij2
      · exact xval_le_top n _ hn2 hjn

theorem getD_replicate_of_lt {n k : Nat} (c : ℚ) (hk : k < n) :
    (List.replicate n c).getD k 0 = c := by
  have hk2 : k < (List.replicate n c).length := by simpa using hk
  rw [List.getD_eq_get _ _ hk2, List.get_replicate]

theorem resampleStops_head (stops : List ℚ) (n : Nat) (hn : 1 ≤ n)
    (hl : 1 ≤ stops.length) :
    (resampleStops stops n).getD 0 0 = stops.getD 0 0 := by
  by_cases h0 : n = 0
  · omega
  by_cases hlen : stops.length = n
  · unfold resampleStops; rw [if_neg h0, if_pos hlen]
  by_cases hz : stops.length = 0
  · omega
  by_cases h1 : stops.length = 1
  · unfold resampleStops; rw [if_neg h0, if_neg hlen, if_neg hz, if_pos h1]
    exact getD_replicate_of_lt _ (by omega)
  · have h2 : 2 ≤ stops.length := by omega
    rw [resample_map_eq stops n h0 hlen h2, getD_map_range _ _ _ (by omega)]
    have hx : (if n = 1 then 0 else (0 : ℚ) / ((n : ℚ) - 1)) *
        ((stops.length - 1 : Nat) : ℚ) = 0 := by
      by_cases hn1 : n = 1
      · rw [if_pos hn1, zero_mul]
      · rw [if_neg hn1, zero_div, zero_mul]
    rw [show ((0 : Nat) : ℚ) = (0 : ℚ) by norm_num, hx]
    have hfl : ⌊(0 : ℚ)⌋₊ < stops.length - 1 := by
      rw [Nat.floor_zero]; omega
    rw [interpAt_of_floor_lt hfl, Nat.floor_zero]
    norm_num

theorem resampleStops_last (stops : List ℚ) (n : Nat) (hn : 2 ≤ n)
    (hl : 1 ≤ stops.length) :
    (resampleStops stops n).getD (n - 1) 0 = stops.getD (stops.length - 1) 0 := by
  by_cases h0 : n = 0
  · omega
  by_cases hlen : stops.length = n
  · unfold resampleStops; rw [if_neg h0, if_pos hlen, hlen]
  by_cases hz : stops.length = 0
  · omega
  by_cases h1 : stops.length = 1
  · unfold resampleStops; rw [if_neg h0, if_neg hlen, if_neg hz, if_pos h1, h1]
    exact getD_replicate_of_lt _ (by omega)
  · have h2 : 2 ≤ stops.length := by omega
    rw [resample_map_eq stops n h0 hlen h2, getD_map_range _ _ _ (by omega)]
    have hx : (if n = 1 then 0 else ((n - 1 : Nat) : ℚ) / ((n : ℚ) - 1)) *
        ((stops.length - 1 : Nat) : ℚ) = ((stops.length - 1 : Nat) : ℚ) := by
      rw [if_neg (by omega)]
      have hc : ((n - 1 : Nat) : ℚ) = (n : ℚ) - 1 := by
        rw [Nat.cast_sub (by omega), Nat.cast_one]
      have hnz : (n : ℚ) - 1 ≠ 0 := by
        have : (2 : ℚ) ≤ (n : ℚ) := by exact_mod_cast hn
        linarith
      rw [hc, div_self hnz, one_mul]
    rw [hx]
    exact interpAt_of_le_floor hl (by rw [Nat.floor_natCast])

theorem resampleStops_mem_range (stops : List ℚ) (n : Nat)
    (hl : 1 ≤ stops.length) {lo hi : ℚ}
    (hmem : ∀ y ∈ stops, lo ≤ y ∧ y ≤ hi) :
    ∀ y ∈ resampleStops stops n, lo ≤ y ∧ y ≤ hi := by
  by_cases h0 : n = 0
  · subst h0; simp [resampleStops]
  by_cases hlen : stops.length = n
  · unfold resampleStops; rw [if_neg h0, if_pos hlen]; exact hmem
  by_cases hz : stops.length = 0
  · omega
  by_cases h1 : stops.length = 1
  · unfold resampleStops; rw [if_neg h0, if_neg hlen, if_neg hz, if_pos h1]
    intro y hy
    rw [List.eq_of_mem_replicate hy]
    exact hmem _ (getD_mem (by omega) _)
  · have h2 : 2 ≤ stops.length := by omega
    rw [resample_map_eq stops n h0 hlen h2]
    intro y hy
    rw [List.mem_map] at hy
    obtain ⟨j, hj, rfl⟩ := hy
    exact interpAt_mem_range hl hmem (xval_nonneg n _ j (by omega))

/-! ### The piecewise mapping core of `mapScrollTop` -/

theorem tval_bounds (a b top : ℚ) :
    0 ≤ (if b = a then 0 else clamp ((top - a) / (b - a)) 0 1) ∧
      (if b = a then 0 else clamp ((top - a) / (b - a)) 0 1) ≤ 1 := by
  by_cases hba : b = a
  · rw [if_pos hba]; norm_num
  · rw [if_neg hba]
    exact ⟨le_clamp _ _ _ (by norm_num), clamp_le _ _ _⟩

theorem seg_interp_bounds {A B t : ℚ} (hAB : A ≤ B) (ht0 : 0 ≤ t) (ht1 : t ≤ 1) :
    A ≤ A + (B - A) * t ∧ A + (B - A) * t ≤ B := by
  constructor <;> nlinarith

theorem mapScrollTop_eq_piecewise (fromTop : ℚ) (fromStops toStops : List ℚ)
    (fromMax toMax : ℚ) (hf : 0 < fromMax) (ht : 0 < toMax) :
    mapScrollTop fromTop fromStops toStops fromMax toMax =
      piecewiseMap
        (resampleStops (if 2 ≤ fromStops.length then fromStops else [0, fromMax])
          (max 2 (min (if 2 ≤ fromStops.length then fromStops else [0, fromMax]).length
            (if 2 ≤ toStops.length then toStops else [0, toMax]).length)))
        (resampleStops (if 2 ≤ toStops.length then toStops else [0, toMax])
          (max 2 (min (if 2 ≤ fromStops.length then fromStops else [0, fromMax]).length
            (if 2 ≤ toStops.length then toStops else [0, toMax]).length)))
        (max 2 (min (if 2 ≤ fromStops.length then fromStops else [0, fromMax]).length
          (if 2 ≤ toStops.length then toStops else [0, toMax]).length))
        (clamp fromTop 0 fromMax) := by
  simp only [mapScrollTop, piecewiseMap]
  rw [if_neg (by push_neg; exact ⟨hf, ht⟩)]

theorem piecewiseMap_mono (fStops tStops : List ℚ) (len : Nat) {top1 top2 : ℚ}
    (hlen : 2 ≤ len) (hfl : fStops.length = len) (htl : tStops.length = len)
    (hfs : fStops.Sorted (· ≤ ·)) (hts : tStops.Sorted (· ≤ ·)) (h : top1 ≤ top2) :
    piecewiseMap fStops tStops len top1 ≤ piecewiseMap fStops tStops len top2 := by
  have hb1 := segScan_le_add fStops top1 (len - 2) 0
  have hb2 := segScan_le_add fStops top2 (len - 2) 0
  have h12 := segScan_mono fStops h (len - 2) 0
  simp only [piecewiseMap]
  set i1 := segScan fStops top1 (len - 2) 0 with hi1
  set i2 := segScan fStops top2 (len - 2) 0 with hi2
  rcases eq_or_lt_of_le h12 with he | hlt
  · rw [← he]
    have hT : tStops.getD i1 0 ≤ tStops.getD (i1 + 1) 0 :=
      sorted_getD_le hts (by omega) (by omega) 0 0
    have hF : fStops.getD i1 0 ≤ fStops.getD (i1 + 1) 0 :=
      sorted_getD_le hfs (by omega) (by omega) 0 0
    by_cases hba : fStops.getD (i1 + 1) 0 = fStops.getD i1 0
    · rw [if_pos hba, if_pos hba]
    · rw [if_neg hba, if_neg hba]
      have hab : fStops.getD i1 0 < fStops.getD (i1 + 1) 0 :=
        lt_of_le_of_ne hF (fun hc => hba hc.symm)
      have hdiv : (top1 - fStops.getD i1 0) / (fStops.getD (i1 + 1) 0 - fStops.getD i1 0) ≤
          (top2 - fStops.getD i1 0) / (fStops.getD (i1 + 1) 0 - fStops.getD i1 0) :=
        (div_le_div_right (by linarith)).mpr (by linarith)
      have hcl := clamp_mono 0 1 hdiv
      nlinarith
  · have ht1 := tval_bounds (fStops.getD i1 0) (fStops.getD (i1 + 1) 0) top1
    have ht2 := tval_bounds (fStops.getD i2 0) (fStops.getD (i2 + 1) 0) top2
    have hT1 : tStops.getD i1 0 ≤ tStops.getD (i1 + 1) 0 :=
      sorted_getD_le hts (by omega) (by omega) 0 0
    have hT2 : tStops.getD i2 0 ≤ tStops.getD (i2 + 1) 0 :=
      sorted_getD_le hts (by omega) (by omega) 0 0
    have hv1 := seg_interp_bounds hT1 ht1.1 ht1.2
    have hv2 := seg_interp_bounds hT2 ht2.1 ht2.2
    have hmid : tStops.getD (i1 + 1) 0 ≤ tStops.getD i2 0 :=
      sorted_getD_le hts (by omega) (by omega) 0 0
    linarith [hv1.2, hv2.1]

theorem piecewiseMap_mem_range (fStops tStops : List ℚ) (len : Nat) (top : ℚ)
    (hlen : 2 ≤ len) (htl : tStops.length = len) {lo hi : ℚ}
    (hmem : ∀ y ∈ tStops, lo ≤ y ∧ y ≤ hi) :
    lo ≤ piecewiseMap fStops tStops len top ∧
      piecewiseMap fStops tStops len top ≤ hi := by
  have hb := segScan_le_add fStops top (len - 2) 0
  simp only [piecewiseMap]
  set i := segScan fStops top (len - 2) 0 with hi
  have hA := hmem _ (getD_mem (show i < tStops.length by omega) 0)
  have hB := hmem _ (getD_mem (show i + 1 < tStops.length by omega) 0)
  have ht := tval_bounds (fStops.getD i 0) (fStops.getD (i + 1) 0) top
  constructor
  · nlinarith [mul_nonneg (sub_nonneg.mpr hA.1) (sub_nonneg.mpr ht.2),
      mul_nonneg (sub_nonneg.mpr hB.1) ht.1]
  · nlinarith [mul_nonneg (sub_nonneg.mpr hA.2) (sub_nonneg.mpr ht.2),
      mul_nonneg (sub_nonneg.mpr hB.2) ht.1]

theorem piecewiseMap_at_zero (fStops tStops : List ℚ) (len : Nat)
    (hlen : 2 ≤ len) (hfl : fStops.length = len)
    (hfs : fStops.Sorted (· ≤ ·)) (hH : fStops.getD 0 0 = 0) :
    piecewiseMap fStops tStops len 0 = tStops.getD 0 0 := by
  simp only [piecewiseMap]
  have hcmp : fStops.getD 0 0 ≤ fStops.getD (0 + 1) 0 :=
    sorted_getD_le hfs (by omega) (by omega) 0 0
  have h01 : (0 : ℚ) ≤ fStops.getD (0 + 1) 0 := hH.symm.trans_le hcmp
  rw [segScan_eq_start fStops 0 (len - 2) 0 h01, hH]
  by_cases hba : fStops.getD (0 + 1) 0 = 0
  · rw [if_pos hba]; ring
  · rw [if_neg hba]
    have : clamp ((0 - 0) / (fStops.getD (0 + 1) 0 - 0)) 0 1 = 0 := by
      norm_num [clamp]
    rw [this]
    ring

theorem piecewiseMap_at_max (fStops tStops : List ℚ) (len : Nat) (M : ℚ)
    (hlen : 2 ≤ len) (hfl : fStops.length = len)
    (hfs : fStops.Sorted (· < ·)) (hlast : fStops.getD (len - 1) 0 = M) :
    piecewiseMap fStops tStops len M = tStops.getD (len - 1) 0 := by
  simp only [piecewiseMap]
  have hfull : segScan fStops M (len - 2) 0 = len - 2 := by
    have h := segScan_full fStops M (len - 2) 0 (fun k hk0 hk => by
      rw [← hlast]
      exact sorted_getD_lt hfs (by omega) (by omega) 0 0)
    omega
  rw [hfull]
  have hidx : len - 2 + 1 = len - 1 := by omega
  rw [hidx, hlast]
  have hab : fStops.getD (len - 2) 0 < M := by
    rw [← hlast]
    exact sorted_getD_lt hfs (by omega) (by omega) 0 0
  rw [if_neg (ne_of_gt hab)]
  rw [div_self (ne_of_gt (by linarith : (0 : ℚ) < M - fStops.getD (len - 2) 0))]
  rw [clamp_of_mem 1 0 1 zero_le_one le_rfl]
  ring

theorem head?_getD {l : List ℚ} {a : ℚ} (h : l.head? = some a) :
    l.getD 0 0 = a := by
  cases l with
  | nil => simp at h
  | cons x xs =>
      simp only [List.head?_cons, Option.some.injEq] at h
      simpa using h

theorem getLast?_getD {l : List ℚ} {a : ℚ} (h : l.getLast? = some a) :
    l.getD (l.length - 1) 0 = a := by
  cases l with
  | nil => simp at h
  | cons x xs =>
      rw [List.getLast?_eq_getElem?] at h
      have hlt : (x :: xs).length - 1 < (x :: xs).length := by simp
      rw [List.getElem?_eq_getElem hlt, Option.some.injEq] at h
      rw [List.getD_eq_getElem _ _ hlt, h]

theorem sorted_le_pair (M : ℚ) (h : 0 ≤ M) : ([0, M] : List ℚ).Sorted (· ≤ ·) := by
  simp [List.sorted_cons, h]

/-! ### Claim theorems for the piecewise mapper -/

/-- C1: on stops `[0,100,400]` and `[0,50,500]` with maxima 400 and 500, the
mapper sends offset 100 exactly to 50 (landmark match) and sends offset 250
strictly between 50 and 500. -/
theorem mapScrollTop_scenario1 :
    mapScrollTop 100 [0, 100, 400] [0, 50, 500] 400 500 = 50 ∧
      50 < mapScrollTop 250 [0, 100, 400] [0, 50, 500] 400 500 ∧
      mapScrollTop 250 [0, 100, 400] [0, 50, 500] 400 500 < 500 := by
  refine ⟨?_, ?_, ?_⟩ <;> norm_num [mapScrollTop, resampleStops, segScan, clamp]

/-- C7: for non-decreasing stop sequences and positive maxima, `mapScrollTop`
is non-decreasing in the offset argument (any lengths; resampling included). -/
theorem mapScrollTop_monotone (fromStops toStops : List ℚ) (fromMax toMax : ℚ)
    (hfs : fromStops.Sorted (· ≤ ·)) (hts : toStops.Sorted (· ≤ ·))
    (hf : 0 < fromMax) (ht : 0 < toMax) {fromTop1 fromTop2 : ℚ}
    (h : fromTop1 ≤ fromTop2) :
    mapScrollTop fromTop1 fromStops toStops fromMax toMax ≤
      mapScrollTop fromTop2 fromStops toStops fromMax toMax := by
  rw [mapScrollTop_eq_piecewise _ _ _ _ _ hf ht,
    mapScrollTop_eq_piecewise _ _ _ _ _ hf ht]
  have hfromL : (if 2 ≤ fromStops.length then fromStops else [0, fromMax]).Sorted
      (· ≤ ·) := by
    split
    · exact hfs
    · exact sorted_le_pair fromMax hf.le
  have htoL : (if 2 ≤ toStops.length then toStops else [0, toMax]).Sorted
      (· ≤ ·) := by
    split
    · exact hts
    · exact sorted_le_pair toMax ht.le
  apply piecewiseMap_mono
  · exact le_max_left _ _
  · exact resampleStops_length _ _
  · exact resampleStops_length _ _
  · exact resampleStops_sorted_le _ _ hfromL
  · exact resampleStops_sorted_le _ _ htoL
  · exact clamp_mono 0 fromMax h

/-- Witness for C7 at the scenario-1 stop set and offsets 100 ≤ 250. -/
theorem mapScrollTop_monotone_witness :
    mapScrollTop 100 [0, 100, 400] [0, 50, 500] 400 500 ≤
      mapScrollTop 250 [0, 100, 400] [0, 50, 500] 400 500 :=
  mapScrollTop_monotone [0, 100, 400] [0, 50, 500] 400 500
    (by norm_num [List.sorted_cons]) (by norm_num [List.sorted_cons])
    (by norm_num) (by norm_num) (by norm_num)

/-- C8 refuted as stated: the stop sequences `[0,400,400]` and `[0,250,500]`
are non-decreasing with at least 2 entries, start at 0, and end at the maxima
400 and 500, yet `mapScrollTop` sends the offset `fromMax = 400` to 250, not
to `toMax = 500` — the segment scan stops at the first segment whose right
endpoint reaches 400. -/
theorem mapScrollTop_boundary_counterexample :
    ([0, 400, 400] : List ℚ).Sorted (· ≤ ·) ∧
      ([0, 250, 500] : List ℚ).Sorted (· ≤ ·) ∧
      ([0, 400, 400] : List ℚ).head? = some 0 ∧
      ([0, 250, 500] : List ℚ).head? = some 0 ∧
      ([0, 400, 400] : List ℚ).getLast? = some 400 ∧
      ([0, 250, 500] : List ℚ).getLast? = some 500 ∧
      mapScrollTop 400 [0, 400, 400] [0, 250, 500] 400 500 = 250 ∧
      mapScrollTop 400 [0, 400, 400] [0, 250, 500] 400 500 ≠ 500 := by
  refine ⟨by norm_num [List.sorted_cons], by norm_num [List.sorted_cons],
    rfl, rfl, rfl, rfl, ?_, ?_⟩ <;>
    norm_num [mapScrollTop, resampleStops, segScan, clamp]

/-- C8 amended: with `fromStops` STRICTLY increasing (as produced by the
0.5px dedup of stop extraction) and `toStops` non-decreasing, both with at
least 2 entries, first entry 0 and last entries the (positive) maxima,
`mapScrollTop` maps 0 to 0 and `fromMax` to `toMax`, resampling included. -/
theorem mapScrollTop_boundary (fromStops toStops : List ℚ) (fromMax toMax : ℚ)
    (hfs : fromStops.Sorted (· < ·)) (hts : toStops.Sorted (· ≤ ·))
    (hf2 : 2 ≤ fromStops.length) (ht2 : 2 ≤ toStops.length)
    (hfh : fromStops.head? = some 0) (hth : toStops.head? = some 0)
    (hflast : fromStops.getLast? = some fromMax)
    (htlast : toStops.getLast? = some toMax)
    (hf : 0 < fromMax) (ht : 0 < toMax) :
    mapScrollTop 0 fromStops toStops fromMax toMax = 0 ∧
      mapScrollTop fromMax fromStops toStops fromMax toMax = toMax := by
  have hLen2 : 2 ≤ max 2 (min fromStops.length toStops.length) := le_max_left _ _
  constructor
  · rw [mapScrollTop_eq_piecewise _ _ _ _ _ hf ht,
      if_pos hf2, if_pos ht2, clamp_of_mem 0 0 fromMax le_rfl hf.le]
    rw [piecewiseMap_at_zero _ _ _ hLen2 (resampleStops_length _ _)
      (resampleStops_sorted_le _ _ (hfs.imp le_of_lt))
      (by rw [resampleStops_head _ _ (by omega) (by omega)]; exact head?_getD hfh)]
    rw [resampleStops_head _ _ (by omega) (by omega)]
    exact head?_getD hth
  · rw [mapScrollTop_eq_piecewise _ _ _ _ _ hf ht,
      if_pos hf2, if_pos ht2, clamp_of_mem fromMax 0 fromMax hf.le le_rfl]
    rw [piecewiseMap_at_max _ _ _ fromMax hLen2 (resampleStops_length _ _)
      (resampleStops_sorted_lt _ _ hf2 hfs)
      (by rw [resampleStops_last _ _ hLen2 (by omega)]; exact getLast?_getD hflast)]
    rw [resampleStops_last _ _ hLen2 (by omega)]
    exact getLast?_getD htlast

/-- Witness for the amended C8 at strictly increasing stops `[0,100,400]`,
`[0,50,500]`. -/
theorem mapScrollTop_boundary_witness :
    mapScrollTop 0 [0, 100, 400] [0, 50, 500] 400 500 = 0 ∧
      mapScrollTop 400 [0, 100, 400] [0, 50, 500] 400 500 = 500 :=
  mapScrollTop_boundary [0, 100, 400] [0, 50, 500] 400 500
    (by norm_num [List.sorted_cons]) (by norm_num [List.sorted_cons])
    (by norm_num) (by norm_num) rfl rfl rfl rfl (by norm_num) (by norm_num)

/-- C9: whenever a stop sequence passed to `mapScrollTop` has fewer than 2
entries (and both maxima are positive), the mapper substitutes the two-point
sequence `[0, max]` for THAT side independently of the other side; with both
sides degenerate the mapping is the linear ratio, in particular
`mapScrollTop 200 [] [] 400 800 = 400`. -/
theorem mapScrollTop_degenerate_stops :
    (∀ (fromTop fromMax toMax : ℚ) (fromStops toStops : List ℚ),
      0 < fromMax → 0 < toMax → fromStops.length < 2 →
        mapScrollTop fromTop fromStops toStops fromMax toMax =
          mapScrollTop fromTop [0, fromMax] toStops fromMax toMax) ∧
    (∀ (fromTop fromMax toMax : ℚ) (fromStops toStops : List ℚ),
      0 < fromMax → 0 < toMax → toStops.length < 2 →
        mapScrollTop fromTop fromStops toStops fromMax toMax =
          mapScrollTop fromTop fromStops [0, toMax] fromMax toMax) ∧
      mapScrollTop 200 [] [] 400 800 = 400 := by
  refine ⟨?_, ?_, ?_⟩
  · intro fromTop fromMax toMax fromStops toStops hf ht hfl
    have hcond : ¬ (fromMax ≤ 0 ∨ toMax ≤ 0) := by push_neg; exact ⟨hf, ht⟩
    simp only [mapScrollTop]
    rw [if_neg hcond, if_neg hcond,
      if_neg (show ¬ 2 ≤ fromStops.length by omega),
      if_pos (by norm_num : 2 ≤ ([0, fromMax] : List ℚ).length)]
  · intro fromTop fromMax toMax fromStops toStops hf ht htl
    have hcond : ¬ (fromMax ≤ 0 ∨ toMax ≤ 0) := by push_neg; exact ⟨hf, ht⟩
    simp only [mapScrollTop]
    rw [if_neg hcond, if_neg hcond,
      if_neg (show ¬ 2 ≤ toStops.length by omega),
      if_pos (by norm_num : 2 ≤ ([0, toMax] : List ℚ).length)]
  · norm_num [mapScrollTop, resampleStops, segScan, clamp]

/-- Witness for C9: one-sided degeneracy on either side (an empty source
stop list against a rich editor stop list, and conversely a one-entry
destination list), plus the two-sided linear-ratio evaluation. -/
theorem mapScrollTop_degenerate_stops_witness :
    mapScrollTop 10 [] [0, 100, 800] 400 800 =
        mapScrollTop 10 [0, 400] [0, 100, 800] 400 800 ∧
      mapScrollTop 10 [0, 100, 400] [7] 400 800 =
        mapScrollTop 10 [0, 100, 400] [0, 800] 400 800 ∧
      mapScrollTop 200 [] [] 400 800 = 400 :=
  ⟨mapScrollTop_degenerate_stops.1 10 400 800 [] [0, 100, 800] (by norm_num)
      (by norm_num) (by norm_num),
    mapScrollTop_degenerate_stops.2.1 10 400 800 [0, 100, 400] [7] (by norm_num)
      (by norm_num) (by norm_num),
    mapScrollTop_degenerate_stops.2.2⟩

/-- C10: whenever `toStops` is non-decreasing with all entries inside
`[0, toMax]` — or has fewer than 2 entries — and both maxima are
non-negative, the mapped offset already lies inside `[0, toMax]`, for every
offset and every source stop sequence. -/
theorem mapScrollTop_mem_range (fromTop : ℚ) (fromStops toStops : List ℚ)
    (fromMax toMax : ℚ) (hf : 0 ≤ fromMax) (ht : 0 ≤ toMax)
    (hto : (toStops.Sorted (· ≤ ·) ∧ ∀ y ∈ toStops, 0 ≤ y ∧ y ≤ toMax) ∨
      toStops.length < 2) :
    0 ≤ mapScrollTop fromTop fromStops toStops fromMax toMax ∧
      mapScrollTop fromTop fromStops toStops fromMax toMax ≤ toMax := by
  by_cases hdeg : fromMax ≤ 0 ∨ toMax ≤ 0
  · simp only [mapScrollTop]
    rw [if_pos hdeg]
    by_cases hf0 : fromMax ≤ 0
    · rw [if_pos hf0, zero_mul]
      exact ⟨le_rfl, ht⟩
    · rw [if_neg hf0]
      have h0 : 0 ≤ clamp (fromTop / fromMax) 0 1 := le_clamp _ _ _ (by norm_num)
      have h1 : clamp (fromTop / fromMax) 0 1 ≤ 1 := clamp_le _ _ _
      constructor
      · exact mul_nonneg h0 ht
      · nlinarith
  · push_neg at hdeg
    obtain ⟨hfp, htp⟩ := hdeg
    rw [mapScrollTop_eq_piecewise _ _ _ _ _ hfp htp]
    have hmemL : ∀ y ∈ (if 2 ≤ toStops.length then toStops else [0, toMax]),
        0 ≤ y ∧ y ≤ toMax := by
      split
      · rcases hto with ⟨_, hmem⟩ | hlt
        · exact hmem
        · omega
      · intro y hy
        rcases List.mem_pair.mp hy with rfl | rfl
        · exact ⟨le_rfl, ht⟩
        · exact ⟨ht, le_rfl⟩
    have hne : 1 ≤ (if 2 ≤ toStops.length then toStops else [0, toMax]).length := by
      split
      · omega
      · norm_num
    exact piecewiseMap_mem_range _ _ _ _ (le_max_left _ _)
      (resampleStops_length _ _) (resampleStops_mem_range _ _ hne hmemL)

/-- Witness for C10 at an offset far beyond the source range. -/
theorem mapScrollTop_mem_range_witness :
    0 ≤ mapScrollTop 1000 [0, 100, 400] [0, 50, 500] 400 500 ∧
      mapScrollTop 1000 [0, 100, 400] [0, 50, 500] 400 500 ≤ 500 :=
  mapScrollTop_mem_range 1000 [0, 100, 400] [0, 50, 500] 400 500
    (by norm_num) (by norm_num)
    (Or.inl ⟨by norm_num [List.sorted_cons], by
      intro y hy
      simp only [List.mem_cons, List.not_mem_nil, or_false] at hy
      rcases hy with rfl | rfl | rfl <;> norm_num⟩)

/-! ### Claim theorems for the sync lock and the edit loop -/

/-- C5: while the opposite pane holds an unexpired lock, a scroll event on
either pane leaves the controller state completely unchanged: no mapping is
recorded, the lock is untouched, and no scroll write is scheduled. -/
theorem sync_locked_noop (now : ℚ) (sourceGeom editorGeom : PaneGeom)
    (stops : Stops) (s : SyncState) (hnow : now ≤ s.syncLockUntil) :
    (s.syncLock = some Pane.source →
      syncEditorToSource now sourceGeom editorGeom stops s = s) ∧
    (s.syncLock = some Pane.editor →
      syncSourceToEditor now sourceGeom editorGeom stops s = s) := by
  constructor <;> intro hlock <;>
    simp [syncEditorToSource, syncSourceToEditor, isLockedByOther, hlock,
      not_lt_of_le hnow]

/-- Witness for C5: a source-held lock with expiry 100 swallows an editor
scroll event at time 50. -/
theorem sync_locked_noop_witness :
    syncEditorToSource 50 ⟨0, 0, 0⟩ ⟨0, 0, 0⟩ ⟨[], []⟩
      ⟨some Pane.source, 100, none, none⟩ =
      ⟨some Pane.source, 100, none, none⟩ :=
  (sync_locked_noop 50 ⟨0, 0, 0⟩ ⟨0, 0, 0⟩ ⟨[], []⟩
    ⟨some Pane.source, 100, none, none⟩ (by norm_num)).1 rfl

/-- C6: a lock acquired at time `T` with window `W` is reported free by any
check strictly after `T + W`, for either pane's handler, and the stale holder
is cleared by the check. -/
theorem lock_expiry (who checkWho : Pane) (W T t : ℚ) (s0 : SyncState)
    (h : T + W < t) :
    (isLockedByOther checkWho t (acquireLock who W T s0)).1 = false ∧
      (isLockedByOther checkWho t (acquireLock who W T s0)).2.syncLock = none := by
  simp [isLockedByOther, acquireLock, h]

/-- Witness for C6: a 240ms source lock taken at time 0 is free at time 500. -/
theorem lock_expiry_witness :
    (isLockedByOther Pane.editor 500
        (acquireLock Pane.source 240 0 ⟨none, 0, none, none⟩)).1 = false ∧
      (isLockedByOther Pane.editor 500
        (acquireLock Pane.source 240 0 ⟨none, 0, none, none⟩)).2.syncLock = none :=
  lock_expiry Pane.source Pane.editor 240 0 500 ⟨none, 0, none, none⟩ (by norm_num)

/-- C4: when the applying-from-source echo flag is set, or the text emitted
by the rendering engine equals the tracked markdown, the `markdownUpdated`
listener does not change the tracked source document. -/
theorem markdownUpdated_no_echo (s : EditState) (nextMarkdown : String)
    (h : s.applyingFromSource = true ∨ nextMarkdown = s.markdown) :
    (markdownUpdated s nextMarkdown).markdown = s.markdown := by
  unfold markdownUpdated
  rcases h with h | h <;> simp [h]

/-- Witness for C4: an echoed replace (flag set) does not touch the source
document. -/
theorem markdownUpdated_no_echo_witness :
    (markdownUpdated ⟨"doc", "old", true⟩ "echoed").markdown = "doc" :=
  markdownUpdated_no_echo ⟨"doc", "old", true⟩ "echoed" (Or.inl rfl)

/-! ### Claim theorem for the debounce protocol -/

theorem runDebounce_cons (D : ℚ) (lastFE : String) (t : ℚ) (s : String)
    (rest : List (ℚ × String)) (pending : Option (ℚ × String)) :
    runDebounce D lastFE ((t, s) :: rest) pending =
      (match pending with
        | some p => if p.1 ≤ t then [p] else []
        | none => []) ++
        runDebounce D lastFE rest
          (if s = lastFE then none else some (t + D, s)) := rfl

theorem runDebounce_cons_of_lt (D : ℚ) (lastFE : String) (t : ℚ) (s : String)
    (rest : List (ℚ × String)) (pending : Option (ℚ × String))
    (h : ∀ p, pending = some p → t < p.1) :
    runDebounce D lastFE ((t, s) :: rest) pending =
      runDebounce D lastFE rest
        (if s = lastFE then none else some (t + D, s)) := by
  rw [runDebounce_cons]
  cases pending with
  | none => exact List.nil_append _
  | some p =>
      show (if p.1 ≤ t then [p] else []) ++
          runDebounce D lastFE rest
            (if s = lastFE then none else some (t + D, s)) =
        runDebounce D lastFE rest (if s = lastFE then none else some (t + D, s))
      rw [if_neg (not_le.mpr (h p rfl))]
      exact List.nil_append _

/-- C3 refuted as stated: two source edits 50ms apart (window 250ms), the
second of which restores the latest render-originated text `"orig"`, satisfy
the claim's burst hypothesis yet produce ZERO `replaceAll` commands — the
effect skips arming a timer when the markdown equals
`lastMarkdownFromEditorRef.current`, after the cleanup already cancelled the
previous timer. -/
theorem debounce_echo_counterexample :
    (50 : ℚ) < 0 + 250 ∧
      runDebounce 250 "orig" [(0, "a"), (50, "orig")] none = [] := by
  refine ⟨by norm_num, ?_⟩
  rw [runDebounce_cons_of_lt _ _ _ _ _ _ (fun p hp => by simp at hp),
    if_neg (show ¬ ("a" : String) = "orig" by decide),
    runDebounce_cons_of_lt _ _ _ _ _ _ (fun p hp => by
      rw [Option.some.injEq] at hp
      rw [← hp]
      norm_num),
    if_pos (show ("orig" : String) = "orig" from rfl)]
  rfl

theorem runDebounce_pending (D : ℚ) (lastFE : String) :
    ∀ (edits : List (ℚ × String)) (pending : Option (ℚ × String))
      (hne : edits ≠ []),
      (∀ p, pending = some p → (edits.head hne).1 < p.1) →
      edits.Chain' (fun a b => b.1 < a.1 + D) →
      (edits.getLast hne).2 ≠ lastFE →
      runDebounce D lastFE edits pending =
        [((edits.getLast hne).1 + D, (edits.getLast hne).2)] := by
  intro edits
  induction edits with
  | nil => intro pending hne; exact absurd rfl hne
  | cons e rest ih =>
      intro pending hne hhead hchain hlast
      obtain ⟨t, s⟩ := e
      have hstep := runDebounce_cons_of_lt D lastFE t s rest pending
        (fun p hp => by simpa using hhead p hp)
      cases rest with
      | nil =>
          have hs : s ≠ lastFE := by simpa using hlast
          rw [hstep, if_neg hs]
          simp [runDebounce]
      | cons r rs =>
          rw [List.chain'_cons] at hchain
          have hrest : (r :: rs : List (ℚ × String)) ≠ [] := by simp
          have hlast2 : ((r :: rs).getLast hrest).2 ≠ lastFE := by
            simpa [List.getLast_cons hrest] using hlast
          have hp : ∀ p, (if s = lastFE then none else some (t + D, s)) = some p →
              ((r :: rs).head hrest).1 < p.1 := by
            intro p hp
            split at hp
            · simp at hp
            · rw [Option.some.injEq] at hp
              rw [← hp]
              exact hchain.1
          have h2 := ih (if s = lastFE then none else some (t + D, s)) hrest
            hp hchain.2 hlast2
          rw [hstep, h2, List.getLast_cons hrest]

/-- C3 amended: for any burst of `N ≥ 1` source edits in which every edit
arrives strictly less than the debounce window `D` after the previous one,
PROVIDED the final edit's text differs from the latest render-originated
text, exactly one `replaceAll` command is produced; it fires exactly `D`
after the last edit and carries the last edit's text.  (An edit equal to
that text disarms the timer without rearming it, so a burst ending there
produces no replace at all.) -/
theorem debounce_coalesce (D : ℚ) (lastFE : String) (edits : List (ℚ × String))
    (hne : edits ≠ [])
    (hchain : edits.Chain' (fun a b => b.1 < a.1 + D))
    (hlast : (edits.getLast hne).2 ≠ lastFE) :
    runDebounce D lastFE edits none =
      [((edits.getLast hne).1 + D, (edits.getLast hne).2)] :=
  runDebounce_pending D lastFE edits none hne (fun p hp => by simp at hp)
    hchain hlast

/-- Witness for C3: three edits inside 100ms with a 250ms window produce one
replace at 350ms carrying the third text. -/
theorem debounce_coalesce_witness :
    runDebounce 250 "" [(0, "a"), (50, "b"), (100, "c")] none = [(350, "c")] := by
  have h := debounce_coalesce 250 "" [(0, "a"), (50, "b"), (100, "c")]
    (by simp) (by norm_num [List.chain'_cons]) (by simp)
  rw [show ((350 : ℚ), "c") = (100 + 250, "c") by norm_num]
  simpa using h

/-! ### Shape of the recomputed stop sets -/

theorem filterAscAux_of_sorted : ∀ (xs : List ℚ) (p : ℚ),
    (p :: xs).Sorted (· ≤ ·) → filterAscAux p xs = xs := by
  intro xs
  induction xs with
  | nil => intro p _; rfl
  | cons y ys ih =>
      intro p h
      rw [List.sorted_cons] at h
      unfold filterAscAux
      rw [if_pos (h.1 y (List.mem_cons_self y ys)), ih y h.2]

theorem filterAsc_of_sorted {l : List ℚ} (h : l.Sorted (· ≤ ·)) :
    filterAsc l = l := by
  cases l with
  | nil => rfl
  | cons x xs =>
      show x :: filterAscAux x xs = x :: xs
      rw [filterAscAux_of_sorted xs x h]

theorem dedupeAux_sublist : ∀ (l : List ℚ) (c : ℚ), (dedupeAux c l).Sublist l := by
  intro l
  induction l with
  | nil => intro c; simp [dedupeAux]
  | cons x xs ih =>
      intro c
      unfold dedupeAux
      split
      · exact (ih x).cons₂ x
      · exact (ih c).cons x

theorem dedupeStops_sorted {l : List ℚ} (h : l.Sorted (· ≤ ·)) :
    (dedupeStops l).Sorted (· ≤ ·) := by
  cases l with
  | nil => simp [dedupeStops]
  | cons x xs =>
      rw [List.sorted_cons] at h
      show (x :: dedupeAux x xs).Sorted (· ≤ ·)
      rw [List.sorted_cons]
      constructor
      · intro b hb
        exact h.1 b ((dedupeAux_sublist xs x).subset hb)
      · exact h.2.sublist (dedupeAux_sublist xs x)

theorem dedupeStops_head? {l : List ℚ} {a : ℚ} (h : l.head? = some a) :
    (dedupeStops l).head? = some a := by
  cases l with
  | nil => simp at h
  | cons x xs =>
      simp only [List.head?_cons, Option.some.injEq] at h
      subst h
      rfl

theorem dedupeAux_last_close : ∀ (l : List ℚ) (c : ℚ),
    |(c :: l).getLastD 0 - (c :: dedupeAux c l).getLastD 0| ≤ 1/2 := by
  intro l
  induction l with
  | nil => intro c; simp [dedupeAux]
  | cons x xs ih =>
      intro c
      unfold dedupeAux
      split
      · simpa only [List.getLastD_cons] using ih x
      · rename_i hdrop
        push_neg at hdrop
        cases xs with
        | nil =>
            simp only [dedupeAux, List.getLastD_cons, List.getLastD_nil]
            exact hdrop
        | cons y ys =>
            simpa only [List.getLastD_cons] using ih c

theorem dedupeStops_last_close (l : List ℚ) (hne : l ≠ []) :
    |l.getLastD 0 - (dedupeStops l).getLastD 0| ≤ 1/2 := by
  cases l with
  | nil => exact absurd rfl hne
  | cons x xs => exact dedupeAux_last_close xs x

theorem getLastD_mem : ∀ (l : List ℚ) (d : ℚ), l ≠ [] → l.getLastD d ∈ l := by
  intro l
  induction l with
  | nil => intro d h; exact absurd rfl h
  | cons a as ih =>
      intro d _
      cases as with
      | nil => simp
      | cons b bs =>
          rw [List.getLastD_cons]
          exact List.mem_cons_of_mem a (ih a (by simp))

theorem sorted_le_getLastD : ∀ {l : List ℚ}, l.Sorted (· ≤ ·) →
    ∀ {x : ℚ}, x ∈ l → x ≤ l.getLastD 0 := by
  intro l
  induction l with
  | nil => intro _ x hx; simp at hx
  | cons a as ih =>
      intro hs x hx
      rw [List.sorted_cons] at hs
      rcases List.mem_cons.mp hx with rfl | hmem
      · cases as with
        | nil => simp
        | cons b bs =>
            have hb := ih hs.2 (List.mem_cons_self b bs)
            have hab := hs.1 b (List.mem_cons_self b bs)
            rw [List.getLastD_cons] at hb ⊢
            rw [List.getLastD_cons]
            linarith
      · have hx2 := ih hs.2 hmem
        cases as with
        | nil => simp at hmem
        | cons b bs =>
            rw [List.getLastD_cons] at hx2 ⊢
            rwa [List.getLastD_cons]

theorem sorted_getLastD_eq {l : List ℚ} (hs : l.Sorted (· ≤ ·)) {m : ℚ}
    (hm : m ∈ l) (hall : ∀ y ∈ l, y ≤ m) : l.getLastD 0 = m := by
  have hne : l ≠ [] := by
    intro h
    rw [h] at hm
    simp at hm
  exact le_antisymm (hall _ (getLastD_mem l 0 hne)) (sorted_le_getLastD hs hm)

theorem sorted_head?_min {l : List ℚ} (hs : l.Sorted (· ≤ ·)) {m : ℚ}
    (hm : m ∈ l) (hall : ∀ y ∈ l, m ≤ y) : l.head? = some m := by
  cases l with
  | nil => simp at hm
  | cons a as =>
      rw [List.sorted_cons] at hs
      have h1 : m ≤ a := hall a (List.mem_cons_self a as)
      have h2 : a ≤ m := by
        rcases List.mem_cons.mp hm with rfl | hmem
        · exact le_rfl
        · exact hs.1 m hmem
      rw [List.head?_cons, le_antisymm h2 h1]

theorem clampLine_mono (lh M : ℚ) {a b : Nat} (h : a ≤ b) :
    clamp ((a : ℚ) * lh) 0 M ≤ clamp ((b : ℚ) * lh) 0 M := by
  rcases le_or_lt 0 lh with hlh | hlh
  · exact clamp_mono 0 M
      (mul_le_mul_of_nonneg_right (by exact_mod_cast h) hlh)
  · have ha : (a : ℚ) * lh ≤ 0 :=
      mul_nonpos_of_nonneg_of_nonpos (by positivity) hlh.le
    have hb : (b : ℚ) * lh ≤ 0 :=
      mul_nonpos_of_nonneg_of_nonpos (by positivity) hlh.le
    rw [clamp_nonneg_of_nonpos _ _ ha, clamp_nonneg_of_nonpos _ _ hb]

theorem sourceStops_shape (lines : List Nat) (hs : lines.Sorted (· ≤ ·))
    (lh M : ℚ) (hM : 0 ≤ M) :
    (dedupeStops (filterAsc (0 :: (lines.map (fun (line : Nat) =>
        clamp ((line : ℚ) * lh) 0 M) ++ [M])))).Sorted (· ≤ ·) ∧
    (dedupeStops (filterAsc (0 :: (lines.map (fun (line : Nat) =>
        clamp ((line : ℚ) * lh) 0 M) ++ [M])))).head? = some 0 ∧
    |(dedupeStops (filterAsc (0 :: (lines.map (fun (line : Nat) =>
        clamp ((line : ℚ) * lh) 0 M) ++ [M])))).getLastD 0 - M| ≤ 1/2 := by
  have hpre : (0 :: (lines.map (fun (line : Nat) =>
      clamp ((line : ℚ) * lh) 0 M) ++ [M])).Sorted (· ≤ ·) := by
    rw [List.sorted_cons]
    constructor
    · intro b hb
      rcases List.mem_append.mp hb with hb | hb
      · obtain ⟨line, _, rfl⟩ := List.mem_map.mp hb
        exact le_clamp _ _ _ hM
      · rw [List.mem_singleton.mp hb]
        exact hM
    · rw [List.Sorted, List.pairwise_append]
      refine ⟨hs.map _ (fun a b hab => clampLine_mono lh M hab), ?_, ?_⟩
      · simp
      · intro a ha b hb
        obtain ⟨line, _, rfl⟩ := List.mem_map.mp ha
        rw [List.mem_singleton.mp hb]
        exact clamp_le _ _ _
  rw [filterAsc_of_sorted hpre]
  refine ⟨dedupeStops_sorted hpre, dedupeStops_head? rfl, ?_⟩
  have hclose := dedupeStops_last_close _ (by simp :
    (0 :: (lines.map (fun (line : Nat) => clamp ((line : ℚ) * lh) 0 M) ++ [M])) ≠ [])
  rw [List.getLastD_cons, List.getLastD_concat] at hclose
  rw [abs_sub_comm]
  exact hclose

theorem editorStops_shape (anchors : List ℚ) (M : ℚ) (hM : 0 ≤ M)
    (hmem : ∀ y ∈ anchors, 0 ≤ y ∧ y ≤ M) :
    (dedupeStops (List.insertionSort (· ≤ ·)
        (0 :: (anchors ++ [M])))).Sorted (· ≤ ·) ∧
    (dedupeStops (List.insertionSort (· ≤ ·)
        (0 :: (anchors ++ [M])))).head? = some 0 ∧
    |(dedupeStops (List.insertionSort (· ≤ ·)
        (0 :: (anchors ++ [M])))).getLastD 0 - M| ≤ 1/2 := by
  have hsort : (List.insertionSort (· ≤ ·) (0 :: (anchors ++ [M]))).Sorted
      (· ≤ ·) := List.sorted_insertionSort _ _
  have hperm := List.perm_insertionSort (· ≤ ·) (0 :: (anchors ++ [M]))
  have hmemS : ∀ y ∈ List.insertionSort (· ≤ ·) (0 :: (anchors ++ [M])),
      0 ≤ y ∧ y ≤ M := by
    intro y hy
    have hy2 := hperm.mem_iff.mp hy
    rcases List.mem_cons.mp hy2 with rfl | hy3
    · exact ⟨le_rfl, hM⟩
    · rcases List.mem_append.mp hy3 with hy4 | hy4
      · exact hmem y hy4
      · rw [List.mem_singleton.mp hy4]
        exact ⟨hM, le_rfl⟩
  have h0S : (0 : ℚ) ∈ List.insertionSort (· ≤ ·) (0 :: (anchors ++ [M])) :=
    hperm.mem_iff.mpr (List.mem_cons_self _ _)
  have hMS : M ∈ List.insertionSort (· ≤ ·) (0 :: (anchors ++ [M])) :=
    hperm.mem_iff.mpr (by simp)
  have hhead : (List.insertionSort (· ≤ ·) (0 :: (anchors ++ [M]))).head? =
      some 0 := sorted_head?_min hsort h0S (fun y hy => (hmemS y hy).1)
  have hlast : (List.insertionSort (· ≤ ·) (0 :: (anchors ++ [M]))).getLastD 0 =
      M := sorted_getLastD_eq hsort hMS (fun y hy => (hmemS y hy).2)
  have hSne : List.insertionSort (· ≤ ·) (0 :: (anchors ++ [M])) ≠ [] := by
    intro h
    rw [h] at h0S
    simp at h0S
  refine ⟨dedupeStops_sorted hsort, dedupeStops_head? hhead, ?_⟩
  have hclose := dedupeStops_last_close _ hSne
  rw [hlast] at hclose
  rw [abs_sub_comm]
  exact hclose

theorem extractHeadingLineStarts_sorted (markdown : String) :
    (extractHeadingLineStarts markdown).Sorted (· ≤ ·) := by
  unfold extractHeadingLineStarts
  exact ((List.pairwise_lt_range _).sublist (List.filter_sublist _)).imp le_of_lt

theorem extractBlockLineStarts_sorted (markdown : String) :
    (extractBlockLineStarts markdown).Sorted (· ≤ ·) := by
  unfold extractBlockLineStarts
  exact List.sorted_insertionSort _ _

/-- C2 refuted as stated: with editor pane metrics 100/0 (maximum scroll
offset 100) and a single block anchor at 99.9px, the recomputed editor stops
are `[0, 99.9]` — the 0.5px dedupe of `recomputeStops` drops the final
`editorMax` bracket, so the last element is NOT the pane's maximum scroll
offset. -/
theorem recomputeStops_last_counterexample :
    (recomputeStops "" 0 0 0 100 0 [] [999/10]).editorStops = [0, 999/10] ∧
      (recomputeStops "" 0 0 0 100 0 [] [999/10]).editorStops.getLastD 0 ≠
        max 0 (100 - 0) := by
  have h : (recomputeStops "" 0 0 0 100 0 [] [999/10]).editorStops =
      [0, 999/10] := by
    norm_num [recomputeStops, dedupeStops, dedupeAux, clamp,
      List.insertionSort, List.orderedInsert, abs_of_nonneg]
  refine ⟨h, ?_⟩
  rw [h]
  norm_num [List.getLastD_cons]

/-- C2 amended: after every run of `recomputeStops`, both produced stop
sequences are non-decreasing, begin at 0, and END WITHIN 0.5px of the
corresponding pane's maximum scroll offset `max 0 (scrollHeight -
clientHeight)` (exact equality can be off by at most the 0.5px dedupe
threshold), for every document text, line height, pane metrics and set of
anchor coordinates. -/
theorem recomputeStops_shape (markdown : String) (lineHeight : ℚ)
    (sourceScrollHeight sourceClientHeight : ℚ)
    (editorScrollHeight editorClientHeight : ℚ)
    (editorHeadingTopsRaw editorBlockTopsRaw : List ℚ) :
    ((recomputeStops markdown lineHeight sourceScrollHeight sourceClientHeight
        editorScrollHeight editorClientHeight editorHeadingTopsRaw
        editorBlockTopsRaw).sourceStops.Sorted (· ≤ ·) ∧
      (recomputeStops markdown lineHeight sourceScrollHeight sourceClientHeight
        editorScrollHeight editorClientHeight editorHeadingTopsRaw
        editorBlockTopsRaw).sourceStops.head? = some 0 ∧
      |(recomputeStops markdown lineHeight sourceScrollHeight sourceClientHeight
        editorScrollHeight editorClientHeight editorHeadingTopsRaw
        editorBlockTopsRaw).sourceStops.getLastD 0 -
          max 0 (sourceScrollHeight - sourceClientHeight)| ≤ 1/2) ∧
    ((recomputeStops markdown lineHeight sourceScrollHeight sourceClientHeight
        editorScrollHeight editorClientHeight editorHeadingTopsRaw
        editorBlockTopsRaw).editorStops.Sorted (· ≤ ·) ∧
      (recomputeStops markdown lineHeight sourceScrollHeight sourceClientHeight
        editorScrollHeight editorClientHeight editorHeadingTopsRaw
        editorBlockTopsRaw).editorStops.head? = some 0 ∧
      |(recomputeStops markdown lineHeight sourceScrollHeight sourceClientHeight
        editorScrollHeight editorClientHeight editorHeadingTopsRaw
        editorBlockTopsRaw).editorStops.getLastD 0 -
          max 0 (editorScrollHeight - editorClientHeight)| ≤ 1/2) := by
  simp only [recomputeStops]
  constructor
  · apply sourceStops_shape
    · split
      · exact extractHeadingLineStarts_sorted markdown
      · exact extractBlockLineStarts_sorted markdown
    · exact le_max_left _ _
  · apply editorStops_shape
    · exact le_max_left _ _
    · have hclamped : ∀ (raw : List ℚ), ∀ y ∈ raw.map (fun top =>
          clamp top 0 (max 0 (editorScrollHeight - editorClientHeight))),
          0 ≤ y ∧ y ≤ max 0 (editorScrollHeight - editorClientHeight) := by
        intro raw y hy
        obtain ⟨t, _, rfl⟩ := List.mem_map.mp hy
        exact ⟨le_clamp _ _ _ (le_max_left _ _), clamp_le _ _ _⟩
      split
      · exact hclamped editorHeadingTopsRaw
      · exact hclamped editorBlockTopsRaw

end Lacto
